import Mathlib

/-!
Verification of the RAG chat server (`packages/webapi/server.js`): a shallow
embedding of its chunker, keyword retriever, PDF cache and `/chat` handler,
with theorems checking the specification's claims against the code.
JavaScript strings are modelled as `List Char`.
-/

set_option maxHeartbeats 1000000
set_option maxRecDepth 10000

namespace RagServer

/-- Model of a JavaScript string: a sequence of characters. -/
abbrev Str := List Char

/-- Dropping a prefix never lengthens a list (helper for termination). -/
theorem dropWhile_length_le {α : Type} (p : α → Bool) :
    (l : List α) → (l.dropWhile p).length ≤ l.length
  | [] => Nat.le_refl 0
  | a :: l => by
    rw [List.dropWhile_cons]
    split
    · exact Nat.le_succ_of_le (dropWhile_length_le p l)
    · exact Nat.le_refl _

/-- The scanner of `jsSplitWs`: `acc` is the current field, reversed;
`skipping` records that the scanner stands inside a whitespace run whose
field has already been emitted (so further whitespace is absorbed). -/
def goSplit : Bool → Str → Str → List Str
  | _, acc, [] => [acc.reverse]
  | skipping, acc, c :: s =>
    if c.isWhitespace then
      if skipping then goSplit true acc s
      else acc.reverse :: goSplit true [] s
    else goSplit false (c :: acc) s

/-- Model of JavaScript `text.split(/\s+/)`: the fields between maximal
whitespace runs.  A leading (resp. trailing) whitespace run yields a leading
(resp. trailing) empty field, and splitting the empty string yields `[""]`. -/
def jsSplitWs (s : Str) : List Str := goSplit false [] s

/-- The scanner of `wsTokens`: `acc` is the current token, reversed. -/
def wsTokensGo : Str → Str → List Str
  | acc, [] => if acc.isEmpty then [] else [acc.reverse]
  | acc, c :: s =>
    if c.isWhitespace then
      if acc.isEmpty then wsTokensGo [] s else acc.reverse :: wsTokensGo [] s
    else wsTokensGo (c :: acc) s

/-- Modelled from the spec: the whitespace-separated tokens of a text (its
maximal non-whitespace runs), used to express the whitespace-normalized form
of a text. -/
def wsTokens (s : Str) : List Str := wsTokensGo [] s

/-- Modelled from the spec: concatenation of a list of chunks with a single
space reinserted between consecutive chunks. -/
def joinSp : List Str → Str
  | [] => []
  | [c] => c
  | c :: c2 :: cs => c ++ ' ' :: joinSp (c2 :: cs)

/-- `const CHUNK_SIZE = 800`. -/
def CHUNK_SIZE : Nat := 800

/-- The chunk-accumulation loop of `loadPDF`: greedily accumulate words into
`cur` (separated by single spaces, the separator being added only when `cur`
is non-empty), flushing `cur` when appending the next word would exceed
`maxSize`; at the end, flush `cur` if it is non-empty (truthy). -/
def chunkWords (maxSize : Nat) : List Str → Str → List Str
  | [], cur => if cur.isEmpty then [] else [cur]
  | w :: ws, cur =>
    if (cur ++ ' ' :: w).length ≤ maxSize then
      chunkWords maxSize ws (if cur.isEmpty then w else cur ++ ' ' :: w)
    else
      cur :: chunkWords maxSize ws w

/-- The chunk sequence `loadPDF` produces from a document text. -/
def chunkText (text : Str) : List Str :=
  chunkWords CHUNK_SIZE (jsSplitWs text) []

/-- The punctuation characters stripped from query terms: `.,?!;:()"'`. -/
def punctChars : List Char :=
  ['.', ',', '?', '!', ';', ':', '(', ')', '"', Char.ofNat 39]

/-- `term.replace(/[.,?!;:()"']/g, "")`. -/
def stripPunct (w : Str) : Str := w.filter (fun c => !punctChars.contains c)

/-- The query-term pipeline of `retrieveRelevantContent`: lower-case, split on
whitespace, keep tokens of length greater than 3, then strip punctuation. -/
def queryTerms (query : Str) : List Str :=
  ((jsSplitWs (query.map Char.toLower)).filter (fun t => decide (3 < t.length))).map stripPunct

/-- Atom of the modelled JavaScript regular-expression fragment: a single
character matched case-insensitively (the code compiles terms with the `i`
flag), either plain or under a greedy one-or-more `+` quantifier. -/
inductive RAtom
  | lit (c : Char)
  | rep (c : Char)
deriving DecidableEq

/-- Characters that JavaScript regular expressions treat specially and that
this model does not interpret; a term containing one is outside the modelled
fragment. -/
def regexMeta : List Char :=
  ['*', '?', '[', ']', '\x7b', '\x7d', '^', '$', '|', '\\', '.', '(', ')']

/-- Model of `new RegExp(term, "gi")` for the modelled fragment: `none` when
the term contains an unmodelled metacharacter, or is an invalid pattern (a `+`
with nothing to repeat, on which the `RegExp` constructor throws). -/
def compileTerm : Str → Option (List RAtom)
  | [] => some []
  | c :: '+' :: rest2 =>
    if c = '+' then none
    else if regexMeta.contains c then none
    else (compileTerm rest2).map (fun p => RAtom.rep c :: p)
  | c :: rest =>
    if c = '+' then none
    else if regexMeta.contains c then none
    else (compileTerm rest).map (fun p => RAtom.lit c :: p)

/-- Case-insensitive character comparison, modelling the `i` flag. -/
def ciEq (a b : Char) : Bool := a.toLower == b.toLower

/-- Attempt to match a compiled pattern at the start of `s`, returning the
number of characters consumed; greedy with backtracking, as the JavaScript
engine behaves on this fragment. -/
def tryMatch : List RAtom → Str → Option Nat
  | [], _ => some 0
  | RAtom.lit _ :: _, [] => none
  | RAtom.lit c :: ps, x :: s =>
    if ciEq c x then (tryMatch ps s).map (· + 1) else none
  | RAtom.rep _ :: _, [] => none
  | RAtom.rep c :: ps, x :: s =>
    if ciEq c x then
      match tryMatch (RAtom.rep c :: ps) s with
      | some n => some (n + 1)
      | none => (tryMatch ps s).map (· + 1)
    else none

/-- The scan loop of `gMatchCount`, with explicit fuel (any fuel above the
length of `s` gives the same value). -/
def gMatchCountGo (p : List RAtom) : Nat → Str → Nat
  | 0, _ => 0
  | _ + 1, [] => if (tryMatch p []).isSome then 1 else 0
  | fuel + 1, x :: s =>
    match tryMatch p (x :: s) with
    | some 0 => 1 + gMatchCountGo p fuel s
    | some (n + 1) => 1 + gMatchCountGo p fuel (s.drop n)
    | none => gMatchCountGo p fuel s

/-- Model of `str.match(regex).length` under the `g` flag (with a `null`
result counted as 0): the number of leftmost non-overlapping matches, a
zero-length match advancing the scan position by one. -/
def gMatchCount (p : List RAtom) (s : Str) : Nat := gMatchCountGo p (s.length + 1) s

/-- The number of matches of one query term in a (lower-cased) chunk:
`chunkLower.match(new RegExp(term, "gi"))`. -/
def countTermMatches (term chunk : Str) : Option Nat :=
  (compileTerm term).map (fun p => gMatchCount p chunk)

/-- JavaScript `Array.prototype.map` under a callback that can throw: `none`
models the exception propagating out of the whole `map`. -/
def mapOption (f : α → Option β) : List α → Option (List β)
  | [] => some []
  | a :: l =>
    match f a, mapOption f l with
    | some b, some bs => some (b :: bs)
    | _, _ => none

/-- The per-chunk score of `retrieveRelevantContent`: the chunk is lower-cased
once, then each term's global match count is added. -/
def scoreChunk (terms : List Str) (chunk : Str) : Option Nat :=
  (mapOption (fun t => countTermMatches t (chunk.map Char.toLower)) terms).map List.sum

/-- The score of a chunk, as a plain number (defaulting to 0; used only to
state properties where `scoreChunk` is known to succeed). -/
def chunkScore (terms : List Str) (chunk : Str) : Nat :=
  (scoreChunk terms chunk).getD 0

/-- Stable insertion of a scored chunk into a list sorted by descending
score: the element is placed after every earlier element of greater-or-equal
score.  JavaScript `Array.prototype.sort` is a stable sort, and a stable sort
by a total preorder has a unique result, so a verified stable insertion sort
is exactly the sort the code performs. -/
def insertScored (a : Str × Nat) : List (Str × Nat) → List (Str × Nat)
  | [] => [a]
  | b :: l => if b.2 ≤ a.2 then a :: b :: l else b :: insertScored a l

/-- The stable sort by descending score performed by
`.sort((a, b) => b.score - a.score)`. -/
def sortScored : List (Str × Nat) → List (Str × Nat)
  | [] => []
  | a :: l => insertScored a (sortScored l)

/-- Model of `retrieveRelevantContent`: normalize the query into terms
(returning `[]` immediately when there are none), score every chunk, drop
zero scores, stable-sort by descending score, keep the first 3, and return
the chunk texts. -/
def retrieveRelevantContent (query : Str) (chunks : List Str) : Option (List Str) :=
  let terms := queryTerms query
  if terms.isEmpty then some []
  else
    (mapOption (fun c => (scoreChunk terms c).map (fun s => (c, s))) chunks).map
      (fun scored =>
        ((sortScored (scored.filter (fun p => decide (0 < p.2)))).take 3).map Prod.fst)

/-- Case-insensitive prefix test for literal patterns. -/
def ciPrefix : Str → Str → Bool
  | [], _ => true
  | _ :: _, [] => false
  | p :: ps, x :: s => ciEq p x && ciPrefix ps s

/-- The scan loop of `countSubstrOcc`, with explicit fuel. -/
def countSubstrOccGo (pat : Str) : Nat → Str → Nat
  | 0, _ => 0
  | _ + 1, [] => if pat.isEmpty then 1 else 0
  | fuel + 1, x :: s =>
    if ciPrefix pat (x :: s) then
      match pat with
      | [] => 1 + countSubstrOccGo [] fuel s
      | _ :: pr => 1 + countSubstrOccGo pat fuel (s.drop pr.length)
    else countSubstrOccGo pat fuel s

/-- Modelled from the spec: the number of non-overlapping case-insensitive
occurrences of `pat` as a literal substring of `s`, scanning left to right
(the empty pattern occurs `s.length + 1` times, once at each position). -/
def countSubstrOcc (pat s : Str) : Nat := countSubstrOccGo pat (s.length + 1) s

/-- A character that JavaScript regular expressions treat literally in the
modelled fragment: not a quantifier and not a metacharacter. -/
def plainChar (c : Char) : Bool := !(c == '+') && !(regexMeta.contains c)

/-- A stored message turn (`BufferMemory` saves a user/assistant pair per
exchange; the system message is rebuilt per request and never stored). -/
inductive Turn
  | user (content : Str)
  | assistant (content : Str)
deriving DecidableEq

/-- The mutable module state of the server: `sessionMemories`, `pdfText`, and
`pdfChunks`. -/
structure ServerState where
  sessions : List (Str × List Turn)
  pdfText : Option Str
  pdfChunks : List Str
deriving DecidableEq

/-- The state at process start: no sessions, no cached document. -/
def initialState : ServerState := ⟨[], none, []⟩

/-- The stored history of a session: empty when the session does not exist. -/
def historyOf (st : ServerState) (sid : Str) : List Turn :=
  (st.sessions.lookup sid).getD []

/-- Model of `getSessionMemory`: create an empty history for the session on
first reference. -/
def ensureSession (st : ServerState) (sid : Str) : ServerState :=
  if (st.sessions.lookup sid).isSome then st
  else { st with sessions := st.sessions ++ [(sid, [])] }

/-- Model of `memory.saveContext`: append the user/assistant pair to the
session's history. -/
def appendTurns (sessions : List (Str × List Turn)) (sid : Str) (u a : Str) :
    List (Str × List Turn) :=
  sessions.map (fun p =>
    if p.1 = sid then (p.1, p.2 ++ [Turn.user u, Turn.assistant a]) else p)

/-- The failure modes of a `/chat` request (all reported through the same
JSON error envelope by the `catch` block). -/
inductive ChatError
  | pdfMissing
  | badRegex
  | modelFailed (msg : Str)
deriving DecidableEq

/-- The outcome the external model client produces when invoked. -/
inductive ModelResult
  | ok (content : Str)
  | err (msg : Str)
deriving DecidableEq

/-- The response of the `/chat` handler: the success JSON
`{reply, sources}`, or the status-500 error envelope. -/
inductive ChatResponse
  | ok (reply : Str) (sources : List Str)
  | error (e : ChatError)
deriving DecidableEq

/-- Model of `loadPDF`: `file` is the text the PDF parser would extract from
the file on disk, `none` when the file does not exist.  The cache check is
`if (pdfText)`, a JavaScript truthiness test: only a cached non-empty text
is a hit (the file is then not read at all); an absent or empty cached text
is falsy, so the file is checked, read, parsed, cached, and chunked. -/
def loadPDF (st : ServerState) (file : Option Str) : Except ChatError (ServerState × Str) :=
  match st.pdfText with
  | some (c :: t) => Except.ok (st, c :: t)
  | _ =>
    match file with
    | none => Except.error ChatError.pdfMissing
    | some txt =>
      Except.ok
        ({ st with pdfText := some txt, pdfChunks := st.pdfChunks ++ chunkText txt }, txt)

/-- `req.body.sessionId || "default_session"`. -/
def defaultSession : Str := "default_session".toList

/-- Resolution of the session id: `undefined` and the (falsy) empty string
both fall back to the default. -/
def resolveSessionId (sid : Option Str) : Str :=
  match sid with
  | none => defaultSession
  | some s => if s.isEmpty then defaultSession else s

/-- The tail of the `/chat` handler: invoke the model and, on success, save
the new exchange into the session history; a model failure is caught and
reported without touching the history. -/
def invokeAndSave (st : ServerState) (sid msg : Str) (sources : List Str)
    (modelResp : ModelResult) : ServerState × ChatResponse :=
  match modelResp with
  | ModelResult.err m => (st, ChatResponse.error (ChatError.modelFailed m))
  | ModelResult.ok reply =>
    ({ st with sessions := appendTurns st.sessions sid msg reply },
      ChatResponse.ok reply sources)

/-- Model of the `POST /chat` handler.  `modelResp` is the outcome the
external model client would produce if invoked; the construction of the
system prompt and message list is omitted from the model, as it is only
passed to that external client. -/
def handleChat (st : ServerState) (message : Str) (useRAG : Option Bool)
    (sessionId : Option Str) (file : Option Str) (modelResp : ModelResult) :
    ServerState × ChatResponse :=
  let rag := useRAG.getD true
  let sid := resolveSessionId sessionId
  let st1 := ensureSession st sid
  if rag then
    match loadPDF st1 file with
    | Except.error e => (st1, ChatResponse.error e)
    | Except.ok (st2, _) =>
      match retrieveRelevantContent message st2.pdfChunks with
      | none => (st2, ChatResponse.error ChatError.badRegex)
      | some sources => invokeAndSave st2 sid message sources modelResp
  else invokeAndSave st1 sid message [] modelResp

/-- One `/chat` request's inputs, for multi-turn runs. -/
structure TurnInput where
  message : Str
  useRAG : Option Bool
  sessionId : Option Str
  file : Option Str
  modelResp : ModelResult

/-- Run a sequence of `/chat` requests, threading the server state. -/
def runChats : ServerState → List TurnInput → ServerState
  | st, [] => st
  | st, t :: ts =>
    runChats (handleChat st t.message t.useRAG t.sessionId t.file t.modelResp).1 ts

/-- Whether a response is the success JSON (a 2xx reply). -/
def respOk : ChatResponse → Bool
  | ChatResponse.ok _ _ => true
  | ChatResponse.error _ => false

/-- Whether every request in a run produces a success response. -/
def allOk : ServerState → List TurnInput → Bool
  | _, [] => true
  | st, t :: ts =>
    let r := handleChat st t.message t.useRAG t.sessionId t.file t.modelResp
    respOk r.2 && allOk r.1 ts

/-- The reply content of a successful model outcome. -/
def okContent : ModelResult → Str
  | ModelResult.ok c => c
  | ModelResult.err m => m

/-! ### Lemmas about the chunker -/

/-- Whether a text begins with a token character (a non-whitespace). -/
def headIsTok (t : Str) : Bool := t.head?.any (fun c => !c.isWhitespace)

/-- Whether a text ends with a whitespace character. -/
def tailIsWs (t : Str) : Bool := t.getLast?.any Char.isWhitespace

theorem dropWhile_cons_head {α : Type} (p : α → Bool) :
    ∀ (l : List α) (x : α) (rest : List α), l.dropWhile p = x :: rest → p x = false
  | [], x, rest, h => by simp at h
  | a :: l, x, rest, h => by
    rw [List.dropWhile_cons] at h
    split at h
    · exact dropWhile_cons_head p l x rest h
    · rename_i hpa
      injection h with h1 h2
      subst h1
      simpa using hpa

/-- Unfolding of the field scanner against `takeWhile`/`dropWhile`. -/
theorem goSplit_false_eq (s : Str) : ∀ acc : Str,
    goSplit false acc s = (acc.reverse ++ s.takeWhile (fun c => !c.isWhitespace)) ::
      (match s.dropWhile (fun c => !c.isWhitespace) with
       | [] => []
       | _ :: rest => goSplit true [] rest) := by
  induction s with
  | nil => intro acc; simp [goSplit]
  | cons c s ih =>
    intro acc
    by_cases hc : c.isWhitespace
    · simp [goSplit, hc, List.takeWhile_cons, List.dropWhile_cons]
    · simp only [goSplit, hc, if_false, List.takeWhile_cons, List.dropWhile_cons, if_neg,
        Bool.not_eq_true]
      rw [ih (c :: acc)]
      simp [hc]

/-- After a separator, the scanner behaves as a fresh split of the remaining
text with its whitespace run removed. -/
theorem goSplit_true_eq (s : Str) :
    goSplit true [] s = jsSplitWs (s.dropWhile Char.isWhitespace) := by
  induction s with
  | nil => simp [goSplit, jsSplitWs]
  | cons c s ih =>
    by_cases hc : c.isWhitespace
    · simp [goSplit, hc, List.dropWhile_cons, ih]
    · simp [jsSplitWs, goSplit, hc, List.dropWhile_cons]

/-- Unfolding of the token scanner against `takeWhile`/`dropWhile`. -/
theorem wsTokensGo_eq (s : Str) : ∀ acc : Str, acc ≠ [] →
    wsTokensGo acc s = (acc.reverse ++ s.takeWhile (fun c => !c.isWhitespace)) ::
      wsTokensGo [] (s.dropWhile (fun c => !c.isWhitespace)) := by
  induction s with
  | nil =>
    intro acc hacc
    simp [wsTokensGo, List.isEmpty_iff, hacc]
  | cons c s ih =>
    intro acc hacc
    by_cases hc : c.isWhitespace
    · simp [wsTokensGo, hc, List.isEmpty_iff, hacc, List.takeWhile_cons, List.dropWhile_cons]
    · simp only [wsTokensGo, hc, if_false, List.takeWhile_cons, List.dropWhile_cons,
        Bool.not_eq_true]
      rw [ih (c :: acc) (by simp)]
      simp [hc]

/-- Skipping a leading whitespace run does not change the token list. -/
theorem wsTokens_dropWhile (s : Str) :
    wsTokens (s.dropWhile Char.isWhitespace) = wsTokens s := by
  induction s with
  | nil => rfl
  | cons c s ih =>
    by_cases hc : c.isWhitespace
    · rw [List.dropWhile_cons, if_pos hc, ih]
      simp [wsTokens, wsTokensGo, hc]
    · rw [List.dropWhile_cons, if_neg hc]

/-- Every whitespace-separated token is non-empty. -/
theorem wsTokens_ne_nil (s : Str) : ∀ acc w, w ∈ wsTokensGo acc s → w ≠ [] := by
  induction s with
  | nil =>
    intro acc w hw
    unfold wsTokensGo at hw
    split at hw
    · simp at hw
    · rename_i hacc
      simp at hw
      subst hw
      simp [List.isEmpty_iff] at hacc
      simpa using hacc
  | cons c s ih =>
    intro acc w hw
    unfold wsTokensGo at hw
    split at hw
    · split at hw
      · exact ih [] w hw
      · rename_i hacc
        rcases List.mem_cons.mp hw with h1 | h2
        · subst h1
          simp [List.isEmpty_iff] at hacc
          simpa using hacc
        · exact ih [] w h2
    · exact ih (c :: acc) w hw

theorem tailIsWs_append (l1 l2 : Str) (h : l2 ≠ []) :
    tailIsWs (l1 ++ l2) = tailIsWs l2 := by
  unfold tailIsWs
  rw [List.getLast?_append_of_ne_nil _ h]

theorem tailIsWs_cons (c : Char) (s : Str) (h : s ≠ []) :
    tailIsWs (c :: s) = tailIsWs s :=
  tailIsWs_append [c] s h

theorem tailIsWs_dropWhile (p : Char → Bool) (l : Str) (h : l.dropWhile p ≠ []) :
    tailIsWs (l.dropWhile p) = tailIsWs l := by
  conv_rhs => rw [← List.takeWhile_append_dropWhile p l]
  rw [tailIsWs_append _ _ h]

theorem tailIsWs_true_of_all (l : Str) (hne : l ≠ [])
    (h : ∀ x ∈ l, x.isWhitespace) : tailIsWs l = true := by
  cases hl : l.getLast? with
  | none => exact absurd (List.getLast?_eq_none_iff.mp hl) hne
  | some x =>
    unfold tailIsWs
    rw [hl]
    simpa using h x (List.mem_of_getLast?_eq_some hl)

theorem tailIsWs_false_of_all (l : Str) (h : ∀ x ∈ l, ¬x.isWhitespace) :
    tailIsWs l = false := by
  cases hl : l.getLast? with
  | none => simp [tailIsWs, hl]
  | some x =>
    unfold tailIsWs
    rw [hl]
    simpa using h x (List.mem_of_getLast?_eq_some hl)

/-- The JavaScript split of a text is its token list, padded with one empty
field in front when the text does not begin with a token character, and one
empty field behind when it ends with whitespace. -/
theorem jsSplitWs_structure_aux : ∀ (n : Nat) (t : Str), t.length ≤ n →
    jsSplitWs t = (if headIsTok t then [] else [[]]) ++ wsTokens t ++
      (if tailIsWs t then [[]] else []) := by
  intro n
  induction n with
  | zero =>
    intro t ht
    have ht0 : t = [] := List.length_eq_zero.mp (Nat.le_zero.mp ht)
    subst ht0
    rfl
  | succ n ih =>
    intro t ht
    match t with
    | [] => rfl
    | c :: s =>
      by_cases hc : c.isWhitespace
      · -- leading whitespace: an empty field is emitted
        have hL : jsSplitWs (c :: s) = [] :: jsSplitWs (s.dropWhile Char.isWhitespace) := by
          show goSplit false [] (c :: s) = _
          unfold goSplit
          rw [if_pos hc, if_neg (by simp)]
          rw [goSplit_true_eq]
          rfl
        have hHead : headIsTok (c :: s) = false := by simp [headIsTok, hc]
        have hTok : wsTokens (c :: s) = wsTokens (s.dropWhile Char.isWhitespace) := by
          rw [wsTokens_dropWhile]
          simp [wsTokens, wsTokensGo, hc]
        cases hs' : s.dropWhile Char.isWhitespace with
        | nil =>
          have hallws : ∀ x ∈ s, x.isWhitespace = true := List.dropWhile_eq_nil_iff.mp hs'
          have hTail : tailIsWs (c :: s) = true := by
            apply tailIsWs_true_of_all _ (by simp)
            intro x hx
            rcases List.mem_cons.mp hx with h1 | h2
            · subst h1; exact hc
            · exact hallws x h2
          rw [hL, hs', hHead, hTok, hs', hTail]
          rfl
        | cons d s'rest =>
          have hd : d.isWhitespace = false :=
            dropWhile_cons_head Char.isWhitespace s d s'rest hs'
          have hlen : (s.dropWhile Char.isWhitespace).length ≤ n := by
            have h1 := dropWhile_length_le Char.isWhitespace s
            simp only [List.length_cons] at ht
            omega
          have hIH := ih (s.dropWhile Char.isWhitespace) hlen
          rw [hs'] at hIH
          have hHead' : headIsTok (d :: s'rest) = true := by simp [headIsTok, hd]
          rw [hHead'] at hIH
          have hs_ne : s ≠ [] := by
            intro h0
            rw [h0] at hs'
            simp at hs'
          have hTail : tailIsWs (c :: s) = tailIsWs (d :: s'rest) := by
            rw [tailIsWs_cons c s hs_ne, ← hs', tailIsWs_dropWhile]
            rw [hs']
            simp
          rw [hL, hs', hIH, hHead, hTok, hs', hTail]
          rfl
      · -- leading token character: the first token is the first field
        have hL : jsSplitWs (c :: s) =
            (c :: s.takeWhile (fun x => !x.isWhitespace)) ::
              (match s.dropWhile (fun x => !x.isWhitespace) with
               | [] => []
               | _ :: rest => goSplit true [] rest) := by
          show goSplit false [] (c :: s) = _
          rw [show goSplit false [] (c :: s) = goSplit false [c] s from by
            simp [goSplit, hc]]
          rw [goSplit_false_eq s [c]]
          simp
        have hHead : headIsTok (c :: s) = true := by simp [headIsTok, hc]
        have hTok : wsTokens (c :: s) =
            (c :: s.takeWhile (fun x => !x.isWhitespace)) ::
              wsTokensGo [] (s.dropWhile (fun x => !x.isWhitespace)) := by
          show wsTokensGo [] (c :: s) = _
          rw [show wsTokensGo [] (c :: s) = wsTokensGo [c] s from by
            simp [wsTokensGo, hc]]
          rw [wsTokensGo_eq s [c] (by simp)]
          simp
        cases hr : s.dropWhile (fun x => !x.isWhitespace) with
        | nil =>
          have hallnf : ∀ x ∈ s, ¬x.isWhitespace := by
            intro x hx
            have := List.dropWhile_eq_nil_iff.mp hr x hx
            simpa using this
          have hTail : tailIsWs (c :: s) = false := by
            apply tailIsWs_false_of_all
            intro x hx
            rcases List.mem_cons.mp hx with h1 | h2
            · subst h1; simpa using hc
            · exact hallnf x h2
          rw [hL, hr, hHead, hTok, hr, hTail]
          rfl
        | cons x rest =>
          have hx : x.isWhitespace := by
            have := dropWhile_cons_head (fun y => !y.isWhitespace) s x rest hr
            simpa using this
          have hs_ne : s ≠ [] := by
            intro h0
            rw [h0] at hr
            simp at hr
          have hTokGo : wsTokensGo [] (x :: rest) =
              wsTokens (rest.dropWhile Char.isWhitespace) := by
            rw [wsTokens_dropWhile]
            simp [wsTokens, wsTokensGo, hx]
          cases hs'' : rest.dropWhile Char.isWhitespace with
          | nil =>
            have hallws : ∀ y ∈ rest, y.isWhitespace = true :=
              List.dropWhile_eq_nil_iff.mp hs''
            have hTail : tailIsWs (c :: s) = true := by
              rw [tailIsWs_cons c s hs_ne, ← List.takeWhile_append_dropWhile
                (fun y => !y.isWhitespace) s, tailIsWs_append _ _ (by rw [hr]; simp), hr]
              apply tailIsWs_true_of_all _ (by simp)
              intro y hy
              rcases List.mem_cons.mp hy with h1 | h2
              · subst h1; exact hx
              · exact hallws y h2
            rw [hL, hr, hHead, hTok, hr, hTokGo, hs'', hTail]
            dsimp only
            rw [goSplit_true_eq, hs'']
            rfl
          | cons e s2 =>
            have he : e.isWhitespace = false :=
              dropWhile_cons_head Char.isWhitespace rest e s2 hs''
            have hlen : (rest.dropWhile Char.isWhitespace).length ≤ n := by
              have h1 := dropWhile_length_le Char.isWhitespace rest
              have h2 := dropWhile_length_le (fun y => !y.isWhitespace) s
              rw [hr] at h2
              simp only [List.length_cons] at ht h2
              omega
            have hIH := ih (rest.dropWhile Char.isWhitespace) hlen
            rw [hs''] at hIH
            have hHead' : headIsTok (e :: s2) = true := by simp [headIsTok, he]
            rw [hHead'] at hIH
            have hrest_ne : rest ≠ [] := by
              intro h0
              rw [h0] at hs''
              simp at hs''
            have hTail : tailIsWs (c :: s) = tailIsWs (e :: s2) := by
              rw [tailIsWs_cons c s hs_ne, ← List.takeWhile_append_dropWhile
                (fun y => !y.isWhitespace) s, tailIsWs_append _ _ (by rw [hr]; simp), hr,
                tailIsWs_cons x rest hrest_ne, ← hs'', tailIsWs_dropWhile]
              rw [hs'']
              simp
            rw [hL, hr, hHead, hTok, hr, hTokGo, hs'', hTail]
            dsimp only
            rw [goSplit_true_eq, hs'', hIH]
            rfl

/-- Structure of `jsSplitWs` in terms of `wsTokens` and the two pads. -/
theorem jsSplitWs_structure (t : Str) :
    jsSplitWs t = (if headIsTok t then [] else [[]]) ++ wsTokens t ++
      (if tailIsWs t then [[]] else []) :=
  jsSplitWs_structure_aux t.length t (Nat.le_refl _)

theorem joinSp_merge (a b : Str) (l : List Str) :
    joinSp ((a ++ ' ' :: b) :: l) = joinSp (a :: b :: l) := by
  cases l with
  | nil => rfl
  | cons x xs => simp [joinSp, List.append_assoc]

/-- Invariant of the chunk loop: starting from a non-empty buffer and feeding
only non-empty words, the produced chunks joined by single spaces are the
buffer and the words joined by single spaces, every chunk is non-empty, and
at least one chunk is produced. -/
theorem chunkWords_inv (M : Nat) : ∀ (ws : List Str) (cur : Str), cur ≠ [] →
    (∀ w ∈ ws, w ≠ []) →
    joinSp (chunkWords M ws cur) = joinSp (cur :: ws) ∧
    (∀ c ∈ chunkWords M ws cur, c ≠ []) ∧ chunkWords M ws cur ≠ [] := by
  intro ws
  induction ws with
  | nil =>
    intro cur hcur _
    unfold chunkWords
    rw [if_neg (by simpa [List.isEmpty_iff] using hcur)]
    refine ⟨rfl, ?_, by simp⟩
    intro c hc
    simp at hc
    subst hc
    exact hcur
  | cons w ws ih =>
    intro cur hcur hws
    have hw : w ≠ [] := hws w (by simp)
    have hws' : ∀ v ∈ ws, v ≠ [] := fun v hv => hws v (by simp [hv])
    unfold chunkWords
    by_cases hle : (cur ++ ' ' :: w).length ≤ M
    · rw [if_pos hle, if_neg (by simpa [List.isEmpty_iff] using hcur)]
      have ih' := ih (cur ++ ' ' :: w) (by simp) hws'
      refine ⟨?_, ih'.2.1, ih'.2.2⟩
      rw [ih'.1, joinSp_merge]
    · rw [if_neg hle]
      have ih' := ih w hw hws'
      refine ⟨?_, ?_, by simp⟩
      · cases hcw : chunkWords M ws w with
        | nil => exact absurd hcw ih'.2.2
        | cons x xs =>
          rw [show joinSp (cur :: x :: xs) = cur ++ ' ' :: joinSp (x :: xs) from rfl]
          rw [← hcw, ih'.1]
          rfl
      · intro c hc
        rcases List.mem_cons.mp hc with h1 | h2
        · subst h1; exact hcur
        · exact ih'.2.1 c h2

/-! ### Claim C3 -/

/-- Counterexample to claim C3 as stated: a trailing whitespace character is
folded into the last chunk as a trailing space (so rejoining the chunks does
not reproduce the normalized text), and a first token of length
`CHUNK_SIZE` makes the loop flush the still-empty buffer, emitting an empty
chunk. -/
theorem chunk_flatten_normalized_cex :
    joinSp (chunkText ['a', 'b', ' ']) ≠ joinSp (wsTokens ['a', 'b', ' ']) ∧
    [] ∈ chunkText (List.replicate CHUNK_SIZE 'a') := by
  constructor
  · decide
  · decide

/-- Claim C3, amended: for a text with no trailing whitespace whose first
token is shorter than `CHUNK_SIZE`, rejoining the produced chunks with
single spaces reproduces the whitespace-normalized text, and no chunk is
empty. -/
theorem chunk_flatten_normalized (t : Str)
    (htrail : tailIsWs t = false)
    (hfirst : ((wsTokens t).head?.all (fun w => decide (w.length < CHUNK_SIZE))) = true) :
    joinSp (chunkText t) = joinSp (wsTokens t) ∧ ∀ c ∈ chunkText t, c ≠ [] := by
  have hfirst' : ∀ w, (wsTokens t).head? = some w → w.length < CHUNK_SIZE := by
    intro w hw
    rw [hw] at hfirst
    simpa using hfirst
  have htoks : ∀ w ∈ wsTokens t, w ≠ [] := fun w hw => wsTokens_ne_nil t [] w hw
  have main : ∀ toks : List Str, (∀ w ∈ toks, w ≠ []) →
      (∀ w, toks.head? = some w → w.length < CHUNK_SIZE) →
      joinSp (chunkWords CHUNK_SIZE toks []) = joinSp toks ∧
      ∀ c ∈ chunkWords CHUNK_SIZE toks [], c ≠ [] := by
    intro toks htk hhd
    cases toks with
    | nil => exact ⟨rfl, by simp [chunkWords]⟩
    | cons t1 rest =>
      have ht1 : t1.length < CHUNK_SIZE := hhd t1 rfl
      have ht1n : t1 ≠ [] := htk t1 (by simp)
      have hrest : ∀ v ∈ rest, v ≠ [] := fun v hv => htk v (by simp [hv])
      unfold chunkWords
      rw [if_pos (by simp; omega)]
      rw [show (if ([] : Str).isEmpty then t1 else [] ++ ' ' :: t1) = t1 from rfl]
      have ih := chunkWords_inv CHUNK_SIZE rest t1 ht1n hrest
      exact ⟨ih.1, ih.2.1⟩
  unfold chunkText
  rw [jsSplitWs_structure t, htrail]
  simp only [Bool.false_eq_true, if_false, List.append_nil]
  by_cases hh : headIsTok t
  · rw [if_pos hh]
    simp only [List.nil_append]
    exact main (wsTokens t) htoks hfirst'
  · rw [if_neg hh]
    have step : chunkWords CHUNK_SIZE ([] :: wsTokens t) [] =
        chunkWords CHUNK_SIZE (wsTokens t) [] := rfl
    rw [show (([[]] : List Str) ++ wsTokens t) = [] :: wsTokens t from rfl, step]
    exact main (wsTokens t) htoks hfirst'

/-- Witness for the amended C3 on a small concrete text. -/
theorem chunk_flatten_normalized_witness :
    joinSp (chunkText ['a', 'b', ' ', 'c', 'd']) =
      joinSp (wsTokens ['a', 'b', ' ', 'c', 'd']) ∧
    ∀ c ∈ chunkText ['a', 'b', ' ', 'c', 'd'], c ≠ [] :=
  chunk_flatten_normalized ['a', 'b', ' ', 'c', 'd'] (by decide) (by decide)

/-! ### Claim C4 -/

theorem chunkWords_bounded (M : Nat) (T : List Str) : ∀ (ws : List Str) (cur : Str),
    (cur.length ≤ M ∨ cur ∈ T) → (∀ w ∈ ws, w = [] ∨ w ∈ T) →
    ∀ c ∈ chunkWords M ws cur, c.length ≤ M ∨ c ∈ T := by
  intro ws
  induction ws with
  | nil =>
    intro cur hcur _ c hc
    unfold chunkWords at hc
    split at hc
    · simp at hc
    · simp at hc
      subst hc
      exact hcur
  | cons w ws ih =>
    intro cur hcur hws c hc
    have hw := hws w (by simp)
    have hws' : ∀ v ∈ ws, v = [] ∨ v ∈ T := fun v hv => hws v (by simp [hv])
    unfold chunkWords at hc
    split at hc
    · rename_i hle
      have hnew : (if cur.isEmpty then w else cur ++ ' ' :: w).length ≤ M := by
        by_cases hce : cur.isEmpty
        · rw [if_pos hce]
          have h0 : cur = [] := List.isEmpty_iff.mp hce
          subst h0
          simp at hle
          omega
        · rw [if_neg hce]
          exact hle
      exact ih _ (Or.inl hnew) hws' c hc
    · rcases List.mem_cons.mp hc with h1 | h2
      · subst h1
        exact hcur
      · have hwb : w.length ≤ M ∨ w ∈ T := by
          rcases hw with h0 | h0
          · subst h0; exact Or.inl (by simp)
          · exact Or.inr h0
        exact ih w hwb hws' c h2

theorem chunkWords_oversized_cur (M : Nat) : ∀ (ws : List Str) (cur : Str),
    M < cur.length → cur ∈ chunkWords M ws cur := by
  intro ws
  induction ws with
  | nil =>
    intro cur hcur
    unfold chunkWords
    rw [if_neg (by simp [List.isEmpty_iff]; intro h0; subst h0; simp at hcur)]
    simp
  | cons w ws ih =>
    intro cur hcur
    unfold chunkWords
    rw [if_neg (by simp [List.length_append]; omega)]
    simp

theorem chunkWords_oversized_mem (M : Nat) : ∀ (ws : List Str) (cur w : Str),
    w ∈ ws → M < w.length → w ∈ chunkWords M ws cur := by
  intro ws
  induction ws with
  | nil =>
    intro cur w hw
    simp at hw
  | cons v ws ih =>
    intro cur w hw hlen
    rcases List.mem_cons.mp hw with h1 | h2
    · subst h1
      unfold chunkWords
      rw [if_neg (by simp [List.length_append]; omega)]
      exact List.mem_cons_of_mem _ (chunkWords_oversized_cur M ws w hlen)
    · unfold chunkWords
      split
      · exact ih _ w h2 hlen
      · exact List.mem_cons_of_mem _ (ih v w h2 hlen)

/-- Claim C4: every produced chunk has length at most `CHUNK_SIZE`, except
that a chunk may be a single oversized source token; conversely every source
token longer than `CHUNK_SIZE` appears as its own chunk. -/
theorem chunk_length_bound (t : Str) :
    (∀ c ∈ chunkText t, c.length ≤ CHUNK_SIZE ∨ c ∈ wsTokens t) ∧
    (∀ w ∈ wsTokens t, CHUNK_SIZE < w.length → w ∈ chunkText t) := by
  have hmem : ∀ w ∈ jsSplitWs t, w = [] ∨ w ∈ wsTokens t := by
    intro w hw
    rw [jsSplitWs_structure t] at hw
    rcases List.mem_append.mp hw with h1 | h2
    · rcases List.mem_append.mp h1 with h3 | h4
      · left
        split at h3 <;> simp at h3
        exact h3
      · right
        exact h4
    · left
      split at h2 <;> simp at h2
      exact h2
  have hmem2 : ∀ w ∈ wsTokens t, w ∈ jsSplitWs t := by
    intro w hw
    rw [jsSplitWs_structure t]
    exact List.mem_append.mpr (Or.inl (List.mem_append.mpr (Or.inr hw)))
  constructor
  · intro c hc
    exact chunkWords_bounded CHUNK_SIZE (wsTokens t) (jsSplitWs t) []
      (Or.inl (by simp)) hmem c hc
  · intro w hw hlen
    exact chunkWords_oversized_mem CHUNK_SIZE (jsSplitWs t) [] w (hmem2 w hw) hlen

/-- Witness for C4 at an 801-character single token, which becomes its own
oversized chunk. -/
theorem chunk_length_bound_witness :
    ((List.replicate 801 'a').length ≤ CHUNK_SIZE ∨
      List.replicate 801 'a' ∈ wsTokens (List.replicate 801 'a')) ∧
    List.replicate 801 'a' ∈ chunkText (List.replicate 801 'a') :=
  ⟨(chunk_length_bound (List.replicate 801 'a')).1 (List.replicate 801 'a') (by decide),
   (chunk_length_bound (List.replicate 801 'a')).2 (List.replicate 801 'a')
     (by decide) (by decide)⟩

theorem historyOf_sessions_eq {st st2 : ServerState} (h : st.sessions = st2.sessions)
    (sid : Str) : historyOf st sid = historyOf st2 sid := by
  unfold historyOf
  rw [h]

theorem historyOf_ensureSession (st : ServerState) (sid sid2 : Str) :
    historyOf (ensureSession st sid) sid2 = historyOf st sid2 := by
  unfold ensureSession historyOf
  split
  · rfl
  · simp only
    rw [List.lookup_append]
    cases hl : List.lookup sid2 st.sessions with
    | some h => simp
    | none => cases hb : (sid2 == sid) <;> simp [List.lookup_cons, hb]

theorem ensureSession_pdfText (st : ServerState) (sid : Str) :
    (ensureSession st sid).pdfText = st.pdfText := by
  unfold ensureSession
  split <;> rfl

theorem ensureSession_pdfChunks (st : ServerState) (sid : Str) :
    (ensureSession st sid).pdfChunks = st.pdfChunks := by
  unfold ensureSession
  split <;> rfl

theorem lookup_ensureSession_self (st : ServerState) (sid : Str) :
    List.lookup sid (ensureSession st sid).sessions = some (historyOf st sid) := by
  unfold ensureSession historyOf
  split
  · rename_i hsome
    cases hl : List.lookup sid st.sessions with
    | some h => simp [hl]
    | none => rw [hl] at hsome; simp at hsome
  · simp only
    rw [List.lookup_append]
    cases hl : List.lookup sid st.sessions with
    | some h => rename_i hsome; rw [hl] at hsome; simp at hsome
    | none => simp

theorem appendTurns_cons (k : Str) (b : List Turn) (l : List (Str × List Turn))
    (sid u a : Str) :
    appendTurns ((k, b) :: l) sid u a =
      (if k = sid then (k, b ++ [Turn.user u, Turn.assistant a]) else (k, b)) ::
        appendTurns l sid u a := by
  by_cases hk : k = sid <;> simp [appendTurns, hk]

theorem lookup_appendTurns_self (l : List (Str × List Turn)) (sid u a : Str) :
    List.lookup sid (appendTurns l sid u a) =
      (List.lookup sid l).map (fun h => h ++ [Turn.user u, Turn.assistant a]) := by
  induction l with
  | nil => simp [appendTurns]
  | cons p l ih =>
    obtain ⟨k, b⟩ := p
    rw [appendTurns_cons]
    by_cases hk : k = sid
    · subst hk
      rw [if_pos rfl]
      simp [List.lookup_cons]
    · have hbeq : (sid == k) = false := by simp [Ne.symm hk]
      rw [if_neg hk]
      simp [List.lookup_cons, hbeq, ih]

theorem lookup_appendTurns_other (l : List (Str × List Turn)) (sid sid2 u a : Str)
    (h : sid2 ≠ sid) :
    List.lookup sid2 (appendTurns l sid u a) = List.lookup sid2 l := by
  induction l with
  | nil => simp [appendTurns]
  | cons p l ih =>
    obtain ⟨k, b⟩ := p
    rw [appendTurns_cons]
    by_cases hk : k = sid
    · subst hk
      have hbeq : (sid2 == k) = false := by simp [h]
      rw [if_pos rfl]
      simp [List.lookup_cons, hbeq, ih]
    · rw [if_neg hk]
      cases hb : (sid2 == k) <;> simp [List.lookup_cons, hb, ih]

theorem loadPDF_sessions {st : ServerState} {file : Option Str} {st2 : ServerState} {t : Str}
    (h : loadPDF st file = Except.ok (st2, t)) : st2.sessions = st.sessions := by
  unfold loadPDF at h
  cases hp : st.pdfText with
  | some t0 =>
    cases t0 with
    | cons c rest =>
      rw [hp] at h
      simp at h
      rw [← h.1]
    | nil =>
      rw [hp] at h
      cases file with
      | none => simp at h
      | some txt =>
        simp at h
        rw [← h.1]
  | none =>
    rw [hp] at h
    cases file with
    | none => simp at h
    | some txt =>
      simp at h
      rw [← h.1]

theorem loadPDF_pdfText_ok {st : ServerState} {file : Option Str} {st2 : ServerState} {t : Str}
    (h : loadPDF st file = Except.ok (st2, t)) : st2.pdfText = some t := by
  unfold loadPDF at h
  cases hp : st.pdfText with
  | some t0 =>
    cases t0 with
    | cons c rest =>
      rw [hp] at h
      simp at h
      rw [← h.1, hp, h.2]
    | nil =>
      rw [hp] at h
      cases file with
      | none => simp at h
      | some txt =>
        simp at h
        rw [← h.1, h.2]
  | none =>
    rw [hp] at h
    cases file with
    | none => simp at h
    | some txt =>
      simp at h
      rw [← h.1, h.2]

/-! ### Claim C8 -/

/-- Counterexample to claim C8 as stated: the cache check is the truthiness
test `if (pdfText)`, and an empty string is falsy in JavaScript.  A first
load of a document whose extracted text is empty succeeds, yet the next
call reads the file system again — here the file has meanwhile disappeared
and the call fails instead of returning the cached result. -/
theorem loadPDF_loads_once_cex :
    loadPDF initialState (some []) = Except.ok (⟨[], some [], []⟩, []) ∧
    loadPDF ⟨[], some [], []⟩ none = Except.error ChatError.pdfMissing := by
  constructor
  · rfl
  · rfl

/-- Claim C8, amended: after a successful `loadPDF` whose extracted text is
non-empty (truthy), every further call is a cache hit: it does not read the
file (the result is the same whatever the file system now holds, including
a missing file), leaves the state — in particular the cached chunk
sequence — unchanged, and returns the same text; such a document is loaded
at most once per process lifetime. -/
theorem loadPDF_loads_once (st : ServerState) (file : Option Str)
    (st2 : ServerState) (t : Str) (h : loadPDF st file = Except.ok (st2, t))
    (hne : t ≠ []) (file2 : Option Str) : loadPDF st2 file2 = Except.ok (st2, t) := by
  have hp : st2.pdfText = some t := loadPDF_pdfText_ok h
  unfold loadPDF
  rw [hp]
  cases t with
  | nil => exact absurd rfl hne
  | cons c rest => rfl

/-- Witness for the amended C8 at a concrete first load with non-empty
extracted text. -/
theorem loadPDF_loads_once_witness :
    loadPDF ⟨[], some ['a', 'b'], [['a', 'b']]⟩ none =
      Except.ok (⟨[], some ['a', 'b'], [['a', 'b']]⟩, ['a', 'b']) :=
  loadPDF_loads_once initialState (some ['a', 'b'])
    ⟨[], some ['a', 'b'], [['a', 'b']]⟩ ['a', 'b'] rfl (by decide) none

/-! ### Claim C6 -/

/-- Claim C6: when the external model call fails, the handler returns the
error envelope and the stored history of every session is unchanged: neither
the user turn nor an assistant turn is appended. -/
theorem modelFailure_preserves_history (st : ServerState) (message : Str)
    (useRAG : Option Bool) (sessionId : Option Str) (file : Option Str) (m : Str) :
    (∃ e, (handleChat st message useRAG sessionId file (ModelResult.err m)).2 =
        ChatResponse.error e) ∧
    ∀ sid, historyOf (handleChat st message useRAG sessionId file (ModelResult.err m)).1 sid
        = historyOf st sid := by
  have key : ∃ stx e, handleChat st message useRAG sessionId file (ModelResult.err m)
      = (stx, ChatResponse.error e) ∧
      stx.sessions = (ensureSession st (resolveSessionId sessionId)).sessions := by
    unfold handleChat
    simp only
    split
    · cases hload : loadPDF (ensureSession st (resolveSessionId sessionId)) file with
      | error e => exact ⟨_, e, rfl, rfl⟩
      | ok p =>
        obtain ⟨st2, t⟩ := p
        have hsess := loadPDF_sessions hload
        dsimp only
        cases hret : retrieveRelevantContent message st2.pdfChunks with
        | none => exact ⟨st2, _, rfl, hsess⟩
        | some sources => exact ⟨st2, _, rfl, hsess⟩
    · exact ⟨_, _, rfl, rfl⟩
  obtain ⟨stx, e, heq, hsess⟩ := key
  rw [heq]
  refine ⟨⟨e, rfl⟩, fun sid => ?_⟩
  rw [historyOf_sessions_eq hsess sid, historyOf_ensureSession]

/-! ### Claim C9 -/

/-- Claim C9: a request that omits `useRAG` behaves exactly as one with
`useRAG: true` (with a missing and uncached document it fails with the
document error, showing the document load is attempted); RAG is skipped only
on an explicit `false`, in which case the request succeeds without the
document and leaves the document cache untouched. -/
theorem useRAG_defaults_true (st : ServerState) (message : Str)
    (sessionId : Option Str) (file : Option Str) (mr : ModelResult) (r : Str)
    (hpdf : st.pdfText = none) :
    handleChat st message none sessionId file mr =
      handleChat st message (some true) sessionId file mr ∧
    (handleChat st message none sessionId none mr).2 =
      ChatResponse.error ChatError.pdfMissing ∧
    (handleChat st message (some false) sessionId none (ModelResult.ok r)).2 =
      ChatResponse.ok r [] ∧
    (handleChat st message (some false) sessionId none (ModelResult.ok r)).1.pdfText
      = st.pdfText ∧
    (handleChat st message (some false) sessionId none (ModelResult.ok r)).1.pdfChunks
      = st.pdfChunks := by
  have h1 : (ensureSession st (resolveSessionId sessionId)).pdfText = none := by
    rw [ensureSession_pdfText]; exact hpdf
  have hload : loadPDF (ensureSession st (resolveSessionId sessionId)) none
      = Except.error ChatError.pdfMissing := by
    unfold loadPDF
    rw [h1]
  have hfalse : (handleChat st message (some false) sessionId none (ModelResult.ok r)).1
      = { ensureSession st (resolveSessionId sessionId) with
          sessions := appendTurns (ensureSession st (resolveSessionId sessionId)).sessions
            (resolveSessionId sessionId) message r } := rfl
  refine ⟨rfl, ?_, rfl, ?_, ?_⟩
  · unfold handleChat
    simp only
    rw [hload]
    rfl
  · rw [hfalse]
    exact ensureSession_pdfText st _
  · rw [hfalse]
    exact ensureSession_pdfChunks st _

/-- Witness for C9 on a fresh server. -/
theorem useRAG_defaults_true_witness :
    handleChat initialState ['h', 'i'] none none none (ModelResult.ok ['y']) =
      handleChat initialState ['h', 'i'] (some true) none none (ModelResult.ok ['y']) ∧
    (handleChat initialState ['h', 'i'] none none none (ModelResult.ok ['y'])).2 =
      ChatResponse.error ChatError.pdfMissing ∧
    (handleChat initialState ['h', 'i'] (some false) none none (ModelResult.ok ['y'])).2 =
      ChatResponse.ok ['y'] [] ∧
    (handleChat initialState ['h', 'i'] (some false) none none
        (ModelResult.ok ['y'])).1.pdfText = initialState.pdfText ∧
    (handleChat initialState ['h', 'i'] (some false) none none
        (ModelResult.ok ['y'])).1.pdfChunks = initialState.pdfChunks :=
  useRAG_defaults_true initialState ['h', 'i'] none none (ModelResult.ok ['y']) ['y'] rfl

/-! ### Claim C10 -/

/-- Claim C10: with RAG in effect (explicitly or by default) and the document
file absent and not yet cached, the handler reports the document error and
the external model client is never invoked: the outcome does not depend on
what the model would have answered. -/
theorem missingPdf_skips_model (st : ServerState) (message : Str)
    (useRAG : Option Bool) (sessionId : Option Str) (mr mr2 : ModelResult)
    (hrag : useRAG.getD true = true) (hpdf : st.pdfText = none) :
    (handleChat st message useRAG sessionId none mr).2 =
      ChatResponse.error ChatError.pdfMissing ∧
    handleChat st message useRAG sessionId none mr =
      handleChat st message useRAG sessionId none mr2 := by
  have h1 : (ensureSession st (resolveSessionId sessionId)).pdfText = none := by
    rw [ensureSession_pdfText]; exact hpdf
  have hload : loadPDF (ensureSession st (resolveSessionId sessionId)) none
      = Except.error ChatError.pdfMissing := by
    unfold loadPDF
    rw [h1]
  have hboth : ∀ mx : ModelResult, handleChat st message useRAG sessionId none mx
      = (ensureSession st (resolveSessionId sessionId),
          ChatResponse.error ChatError.pdfMissing) := by
    intro mx
    unfold handleChat
    simp only
    rw [hrag, hload]
    simp
  rw [hboth mr, hboth mr2]
  exact ⟨rfl, rfl⟩

/-- Witness for C10 on a fresh server with the handbook file absent. -/
theorem missingPdf_skips_model_witness :
    (handleChat initialState ['h', 'i'] none none none
        (ModelResult.ok ['y'])).2 = ChatResponse.error ChatError.pdfMissing ∧
    handleChat initialState ['h', 'i'] none none none (ModelResult.ok ['y']) =
      handleChat initialState ['h', 'i'] none none none (ModelResult.err ['z']) :=
  missingPdf_skips_model initialState ['h', 'i'] none none
    (ModelResult.ok ['y']) (ModelResult.err ['z']) rfl rfl

/-! ### Claim C7 -/

theorem handleChat_sessions_ok (st : ServerState) (m : Str) (u : Option Bool)
    (sOpt : Option Str) (f : Option Str) (mr : ModelResult)
    (hok : respOk (handleChat st m u sOpt f mr).2 = true) :
    (handleChat st m u sOpt f mr).1.sessions =
      appendTurns (ensureSession st (resolveSessionId sOpt)).sessions
        (resolveSessionId sOpt) m (okContent mr) := by
  unfold handleChat at hok ⊢
  simp only at hok ⊢
  cases hrag : u.getD true with
  | false =>
    simp only [hrag, Bool.false_eq_true, if_false] at hok ⊢
    cases mr with
    | err e => simp [invokeAndSave, respOk] at hok
    | ok reply => simp [invokeAndSave, okContent]
  | true =>
    simp only [hrag, if_true] at hok ⊢
    cases hload : loadPDF (ensureSession st (resolveSessionId sOpt)) f with
    | error e =>
      rw [hload] at hok
      simp [respOk] at hok
    | ok p =>
      obtain ⟨st2, t⟩ := p
      rw [hload] at hok
      dsimp only at hok ⊢
      have hsess := loadPDF_sessions hload
      cases hret : retrieveRelevantContent m st2.pdfChunks with
      | none =>
        rw [hret] at hok
        simp [respOk] at hok
      | some sources =>
        rw [hret] at hok
        dsimp only at hok ⊢
        cases mr with
        | err e => simp [invokeAndSave, respOk] at hok
        | ok reply => simp [invokeAndSave, okContent, hsess]

theorem handleChat_other_history (st : ServerState) (m : Str) (u : Option Bool)
    (sOpt : Option Str) (f : Option Str) (mr : ModelResult) (sid : Str)
    (hne : sid ≠ resolveSessionId sOpt) :
    historyOf (handleChat st m u sOpt f mr).1 sid = historyOf st sid := by
  have base : ∀ sess, List.lookup sid
      (appendTurns (ensureSession st (resolveSessionId sOpt)).sessions
        (resolveSessionId sOpt) m sess) =
      List.lookup sid (ensureSession st (resolveSessionId sOpt)).sessions := fun sess =>
    lookup_appendTurns_other _ _ _ _ _ hne
  have hens : historyOf (ensureSession st (resolveSessionId sOpt)) sid = historyOf st sid :=
    historyOf_ensureSession st _ sid
  unfold handleChat
  simp only
  cases hrag : u.getD true with
  | false =>
    simp only [hrag, Bool.false_eq_true, if_false]
    cases mr with
    | err e => exact hens
    | ok reply =>
      show (List.lookup sid (appendTurns (ensureSession st (resolveSessionId sOpt)).sessions
          (resolveSessionId sOpt) m reply)).getD [] = historyOf st sid
      rw [base reply]
      exact hens
  | true =>
    simp only [hrag, if_true]
    cases hload : loadPDF (ensureSession st (resolveSessionId sOpt)) f with
    | error e => exact hens
    | ok p =>
      obtain ⟨st2, t⟩ := p
      dsimp only
      have hsess := loadPDF_sessions hload
      have h2 : historyOf st2 sid = historyOf st sid := by
        rw [historyOf_sessions_eq hsess sid]; exact hens
      cases hret : retrieveRelevantContent m st2.pdfChunks with
      | none => exact h2
      | some sources =>
        dsimp only
        cases mr with
        | err e => exact h2
        | ok reply =>
          show (List.lookup sid (appendTurns st2.sessions
              (resolveSessionId sOpt) m reply)).getD [] = historyOf st sid
          rw [hsess, base reply]
          exact hens

theorem handleChat_ok_self (st : ServerState) (m : Str) (u : Option Bool)
    (sOpt : Option Str) (f : Option Str) (mr : ModelResult)
    (hok : respOk (handleChat st m u sOpt f mr).2 = true) :
    historyOf (handleChat st m u sOpt f mr).1 (resolveSessionId sOpt) =
      historyOf st (resolveSessionId sOpt) ++
        [Turn.user m, Turn.assistant (okContent mr)] := by
  have hs := handleChat_sessions_ok st m u sOpt f mr hok
  unfold historyOf
  rw [hs, lookup_appendTurns_self, lookup_ensureSession_self]
  simp
  rfl

theorem runChats_ok_history (ts : List TurnInput) (st : ServerState) (S : Str)
    (hall : ∀ t ∈ ts, resolveSessionId t.sessionId = S)
    (hok : allOk st ts = true) :
    historyOf (runChats st ts) S = historyOf st S ++
      (ts.map (fun t => [Turn.user t.message, Turn.assistant (okContent t.modelResp)])).flatten := by
  induction ts generalizing st with
  | nil => simp [runChats]
  | cons t ts ih =>
    have hS : resolveSessionId t.sessionId = S := hall t (List.mem_cons_self t ts)
    unfold allOk at hok
    simp only [Bool.and_eq_true] at hok
    have hstep := handleChat_ok_self st t.message t.useRAG t.sessionId t.file t.modelResp hok.1
    rw [hS] at hstep
    unfold runChats
    rw [ih _ (fun x hx => hall x (List.mem_cons_of_mem t hx)) hok.2, hstep]
    simp [List.flatten]

theorem runChats_untouched_history (ts : List TurnInput) (st : ServerState) (S : Str)
    (hall : ∀ t ∈ ts, resolveSessionId t.sessionId ≠ S) :
    historyOf (runChats st ts) S = historyOf st S := by
  induction ts generalizing st with
  | nil => simp [runChats]
  | cons t ts ih =>
    have hS : S ≠ resolveSessionId t.sessionId :=
      fun h => hall t (List.mem_cons_self t ts) h.symm
    unfold runChats
    rw [ih _ (fun x hx => hall x (List.mem_cons_of_mem t hx))]
    exact handleChat_other_history st t.message t.useRAG t.sessionId t.file t.modelResp S hS

theorem pairsJoin_length (ts : List TurnInput) :
    ((ts.map (fun t =>
      [Turn.user t.message, Turn.assistant (okContent t.modelResp)])).flatten).length =
      2 * ts.length := by
  induction ts with
  | nil => simp
  | cons t ts ih =>
    simp [List.flatten, ih]
    omega

/-- Claim C7: starting from a fresh server, after N successful chat turns all
addressed to session S, the stored history of S is exactly the N
user/assistant pairs in chronological order — length 2N — and the history of
a session that no request ever resolved to is empty. -/
theorem session_history_pairs :
    (∀ (S : Str) (ts : List TurnInput),
      (∀ t ∈ ts, resolveSessionId t.sessionId = S) →
      allOk initialState ts = true →
      historyOf (runChats initialState ts) S =
        (ts.map (fun t =>
          [Turn.user t.message, Turn.assistant (okContent t.modelResp)])).flatten ∧
      (historyOf (runChats initialState ts) S).length = 2 * ts.length) ∧
    (∀ (S : Str) (ts : List TurnInput),
      (∀ t ∈ ts, resolveSessionId t.sessionId ≠ S) →
      historyOf (runChats initialState ts) S = []) := by
  have hinit : ∀ S, historyOf initialState S = [] := fun S => rfl
  constructor
  · intro S ts hall hok
    have h := runChats_ok_history ts initialState S hall hok
    rw [hinit S] at h
    simp only [List.nil_append] at h
    exact ⟨h, by rw [h]; exact pairsJoin_length ts⟩
  · intro S ts hall
    rw [runChats_untouched_history ts initialState S hall]
    exact hinit S

/-! ### Lemmas about the regular-expression model -/

theorem gMatchCountGo_fuel (p : List RAtom) :
    ∀ (f1 : Nat) (s : Str) (f2 : Nat), s.length < f1 → s.length < f2 →
      gMatchCountGo p f1 s = gMatchCountGo p f2 s := by
  intro f1
  induction f1 with
  | zero => intro s f2 h1; omega
  | succ f1 ih =>
    intro s f2 h1 h2
    match f2, h2 with
    | f2 + 1, h2 =>
      cases s with
      | nil => rfl
      | cons x s =>
        simp only [gMatchCountGo]
        simp only [List.length_cons] at h1 h2
        have hd : (s.drop (Nat.pred (Nat.succ 0))).length ≤ s.length := by simp
        cases htm : tryMatch p (x :: s) with
        | none => exact ih s f2 (by omega) (by omega)
        | some n =>
          cases n with
          | zero =>
            dsimp only
            rw [ih s f2 (by omega) (by omega)]
          | succ n =>
            have hlen : (s.drop n).length ≤ s.length := by
              rw [List.length_drop]
              omega
            dsimp only
            rw [ih (s.drop n) f2 (by omega) (by omega)]

theorem gMatchCount_nil (p : List RAtom) :
    gMatchCount p [] = if (tryMatch p []).isSome then 1 else 0 := rfl

theorem gMatchCount_cons (p : List RAtom) (x : Char) (s : Str) :
    gMatchCount p (x :: s) =
      match tryMatch p (x :: s) with
      | some 0 => 1 + gMatchCount p s
      | some (n + 1) => 1 + gMatchCount p (s.drop n)
      | none => gMatchCount p s := by
  show gMatchCountGo p (s.length + 2) (x :: s) = _
  simp only [gMatchCountGo]
  cases htm : tryMatch p (x :: s) with
  | none => rfl
  | some n =>
    cases n with
    | zero => rfl
    | succ n =>
      have hlen : (s.drop n).length ≤ s.length := by
        rw [List.length_drop]
        omega
      dsimp only
      rw [gMatchCountGo_fuel p (s.length + 1) (s.drop n) ((s.drop n).length + 1)
        (by omega) (by omega)]
      rfl

theorem countSubstrOccGo_fuel (pat : Str) :
    ∀ (f1 : Nat) (s : Str) (f2 : Nat), s.length < f1 → s.length < f2 →
      countSubstrOccGo pat f1 s = countSubstrOccGo pat f2 s := by
  intro f1
  induction f1 generalizing pat with
  | zero => intro s f2 h1; omega
  | succ f1 ih =>
    intro s f2 h1 h2
    match f2, h2 with
    | f2 + 1, h2 =>
      cases s with
      | nil => rfl
      | cons x s =>
        simp only [countSubstrOccGo]
        simp only [List.length_cons] at h1 h2
        cases hpre : ciPrefix pat (x :: s) with
        | false =>
          simp only [Bool.false_eq_true, if_false]
          exact ih pat s f2 (by omega) (by omega)
        | true =>
          simp only [if_true]
          cases pat with
          | nil =>
            dsimp only
            rw [ih [] s f2 (by omega) (by omega)]
          | cons p0 pr =>
            have hlen : (s.drop pr.length).length ≤ s.length := by
              rw [List.length_drop]
              omega
            dsimp only
            rw [ih (p0 :: pr) (s.drop pr.length) f2 (by omega) (by omega)]

theorem countSubstrOcc_nil (pat : Str) :
    countSubstrOcc pat [] = if pat.isEmpty then 1 else 0 := rfl

theorem countSubstrOcc_cons (pat : Str) (x : Char) (s : Str) :
    countSubstrOcc pat (x :: s) =
      if ciPrefix pat (x :: s) then
        match pat with
        | [] => 1 + countSubstrOcc [] s
        | _ :: pr => 1 + countSubstrOcc pat (s.drop pr.length)
      else countSubstrOcc pat s := by
  show countSubstrOccGo pat (s.length + 2) (x :: s) = _
  simp only [countSubstrOccGo]
  cases hpre : ciPrefix pat (x :: s) with
  | false =>
    simp only [Bool.false_eq_true, if_false]
    exact countSubstrOccGo_fuel pat (s.length + 1) s (s.length + 1) (by omega) (by omega)
  | true =>
    simp only [if_true]
    cases pat with
    | nil => rfl
    | cons p0 pr =>
      have hlen : (s.drop pr.length).length ≤ s.length := by
        rw [List.length_drop]
        omega
      dsimp only
      rw [countSubstrOccGo_fuel (p0 :: pr) (s.length + 1) (s.drop pr.length)
        ((s.drop pr.length).length + 1) (by omega) (by omega)]
      rfl

/-- On an all-literal pattern, the matcher is exactly a case-insensitive
prefix test consuming the pattern's length. -/
theorem tryMatch_lit (pat : Str) : ∀ s : Str,
    tryMatch (pat.map RAtom.lit) s =
      if ciPrefix pat s then some pat.length else none := by
  induction pat with
  | nil =>
    intro s
    cases s <;> rfl
  | cons c pr ih =>
    intro s
    cases s with
    | nil => rfl
    | cons x s =>
      simp only [List.map_cons, tryMatch, ciPrefix]
      by_cases hcx : ciEq c x
      · rw [if_pos hcx, ih s]
        by_cases hp : ciPrefix pr s
        · rw [if_pos hp, if_pos (by simp [hcx, hp])]
          simp
        · rw [if_neg hp, if_neg (by simp [hp])]
          rfl
      · rw [if_neg hcx, if_neg (by simp [hcx])]

/-- On an all-literal pattern, the global match count of the modelled engine
is the non-overlapping case-insensitive substring count. -/
theorem gMatchCount_lit_aux : ∀ (n : Nat) (s : Str), s.length ≤ n → ∀ pat : Str,
    gMatchCount (pat.map RAtom.lit) s = countSubstrOcc pat s := by
  intro n
  induction n with
  | zero =>
    intro s hs pat
    have h0 : s = [] := List.length_eq_zero.mp (Nat.le_zero.mp hs)
    subst h0
    rw [gMatchCount_nil, countSubstrOcc_nil, tryMatch_lit]
    cases pat with
    | nil => rfl
    | cons c pr => rfl
  | succ n ih =>
    intro s hs pat
    cases s with
    | nil =>
      rw [gMatchCount_nil, countSubstrOcc_nil, tryMatch_lit]
      cases pat with
      | nil => rfl
      | cons c pr => rfl
    | cons x s =>
      simp only [List.length_cons] at hs
      rw [gMatchCount_cons, countSubstrOcc_cons, tryMatch_lit]
      by_cases hpre : ciPrefix pat (x :: s)
      · rw [if_pos hpre, if_pos hpre]
        cases pat with
        | nil =>
          have h0 := ih s (by omega) ([] : Str)
          simp only [List.map_nil] at h0
          simp only [List.length_nil, List.map_nil]
          rw [h0]
        | cons p0 pr =>
          have hlen : (s.drop pr.length).length ≤ n := by
            rw [List.length_drop]
            omega
          have h0 := ih (s.drop pr.length) hlen (p0 :: pr)
          simp only [List.length_cons]
          rw [h0]
      · rw [if_neg hpre, if_neg hpre]
        exact ih s (by omega) pat

theorem gMatchCount_lit (pat s : Str) :
    gMatchCount (pat.map RAtom.lit) s = countSubstrOcc pat s :=
  gMatchCount_lit_aux s.length s (Nat.le_refl _) pat

/-- A term of plain characters compiles to the all-literal pattern. -/
theorem compileTerm_plain : ∀ pat : Str, (∀ c ∈ pat, plainChar c = true) →
    compileTerm pat = some (pat.map RAtom.lit) := by
  intro pat
  induction pat with
  | nil => intro _; rfl
  | cons c rest ih =>
    intro hplain
    have hc : plainChar c = true := hplain c (by simp)
    have hcp : ¬c = '+' := by
      intro h0
      subst h0
      simp [plainChar] at hc
    have hcm : regexMeta.contains c = false := by
      have := hc
      unfold plainChar at this
      simp at this
      simpa using this.2
    have hrest : ∀ x ∈ rest, plainChar x = true := fun x hx => hplain x (by simp [hx])
    cases rest with
    | nil =>
      have hmem : c ∉ regexMeta := by simpa using hcm
      simp [compileTerm, hcp, hmem]
    | cons r rrest =>
      have hr : plainChar r = true := hrest r (by simp)
      have hrp : ¬r = '+' := by
        intro h0
        subst h0
        simp [plainChar] at hr
      rw [compileTerm.eq_3 c (r :: rrest) (by
        intro rest2 h0
        injection h0 with e1 e2
        exact hrp e1)]
      rw [if_neg hcp, if_neg (by simpa using hcm)]
      rw [ih hrest]
      rfl

/-- Witness for C7: two successful RAG-disabled turns on session `s`, and a
run that never references session `z`. -/
theorem session_history_pairs_witness :
    historyOf (runChats initialState
        [⟨['h', 'i'], some false, some ['s'], none, ModelResult.ok ['y', 'o']⟩,
         ⟨['h', 'o'], some false, some ['s'], none, ModelResult.ok ['k']⟩]) ['s'] =
      [Turn.user ['h', 'i'], Turn.assistant ['y', 'o'],
       Turn.user ['h', 'o'], Turn.assistant ['k']] ∧
    historyOf (runChats initialState
        [⟨['h', 'i'], some false, some ['s'], none, ModelResult.ok ['y', 'o']⟩]) ['z'] = [] :=
  ⟨((session_history_pairs).1 ['s']
      [⟨['h', 'i'], some false, some ['s'], none, ModelResult.ok ['y', 'o']⟩,
       ⟨['h', 'o'], some false, some ['s'], none, ModelResult.ok ['k']⟩]
      (by decide) (by decide)).1.trans (by decide),
    (session_history_pairs).2 ['z']
      [⟨['h', 'i'], some false, some ['s'], none, ModelResult.ok ['y', 'o']⟩]
      (by decide)⟩

/-! ### Claim C2 -/

/-- Counterexample to claim C2 as stated: query terms are passed to the
`RegExp` constructor without escaping, so a term containing a regex
metacharacter is not matched as a literal substring.  The term `abb+d`
scores 1 against the chunk `xabbbd` (the pattern `/abb+d/gi` matches
`abbbd`), while its literal non-overlapping case-insensitive substring
count in the lower-cased chunk is 0. -/
theorem score_sum_literal_cex :
    scoreChunk [['a', 'b', 'b', '+', 'd']] ['x', 'a', 'b', 'b', 'b', 'd'] = some 1 ∧
    countSubstrOcc ['a', 'b', 'b', '+', 'd']
      (['x', 'a', 'b', 'b', 'b', 'd'].map Char.toLower) = 0 := by
  constructor
  · decide
  · decide

/-- Claim C2, amended: for a non-empty term list in which every term consists
only of characters the regex engine treats literally, the chunk score is the
sum, over the terms, of the number of non-overlapping case-insensitive
literal substring occurrences of the term in the (lower-cased) chunk. -/
theorem score_sum_literal (terms : List Str) (chunk : Str)
    (_hne : terms ≠ [])
    (hplain : ∀ q ∈ terms, ∀ c ∈ q, plainChar c = true) :
    scoreChunk terms chunk =
      some ((terms.map (fun q => countSubstrOcc q (chunk.map Char.toLower))).sum) := by
  have base : ∀ ts : List Str, (∀ q ∈ ts, ∀ c ∈ q, plainChar c = true) →
      mapOption (fun q => countTermMatches q (chunk.map Char.toLower)) ts
        = some (ts.map (fun q => countSubstrOcc q (chunk.map Char.toLower))) := by
    intro ts
    induction ts with
    | nil => intro _; rfl
    | cons q qs ih =>
      intro hp
      have hq : compileTerm q = some (q.map RAtom.lit) :=
        compileTerm_plain q (hp q (by simp))
      have hcount : countTermMatches q (chunk.map Char.toLower)
          = some (countSubstrOcc q (chunk.map Char.toLower)) := by
        unfold countTermMatches
        rw [hq]
        simp [gMatchCount_lit]
      simp only [mapOption, hcount, ih (fun q2 h2 => hp q2 (by simp [h2])), List.map_cons]
  unfold scoreChunk
  rw [base terms hplain]
  rfl

/-- Witness for the amended C2: the plain term `week` scores by literal
case-insensitive counting. -/
theorem score_sum_literal_witness :
    scoreChunk [['w', 'e', 'e', 'k']] ['W', 'e', 'e', 'k', 'x'] =
      some (([['w', 'e', 'e', 'k']].map
        (fun q => countSubstrOcc q (['W', 'e', 'e', 'k', 'x'].map Char.toLower))).sum) :=
  score_sum_literal [['w', 'e', 'e', 'k']] ['W', 'e', 'e', 'k', 'x']
    (by decide) (by decide)

/-! ### Claim C5 -/

/-- Counterexample to claim C5 as stated: the length filter runs before
punctuation stripping, so the token `....` (length 4) survives the filter
and strips to the empty term, which is then matched against the chunks — an
empty pattern matches at every position, so the chunk is retrieved.  The
matched term has length 0, not greater than 3. -/
theorem queryTerms_cex :
    queryTerms ['.', '.', '.', '.'] = [[]] ∧
    retrieveRelevantContent ['.', '.', '.', '.'] [['a', 'b', 'c']] =
      some [['a', 'b', 'c']] := by
  constructor
  · decide
  · decide

/-- Claim C5, amended: every scoring term arises from a whitespace-split
token of the lower-cased query of pre-stripping length greater than 3 by
deleting the punctuation characters — the resulting term itself may be short
or empty — and a query all of whose tokens have length at most 3 yields an
empty retrieval result. -/
theorem queryTerms_pipeline (q : Str) (chunks : List Str) :
    (∀ term ∈ queryTerms q, ∃ tok, tok ∈ jsSplitWs (q.map Char.toLower) ∧
      3 < tok.length ∧ term = stripPunct tok) ∧
    ((∀ tok ∈ jsSplitWs (q.map Char.toLower), tok.length ≤ 3) →
      retrieveRelevantContent q chunks = some []) := by
  constructor
  · intro term hterm
    unfold queryTerms at hterm
    rcases List.mem_map.mp hterm with ⟨tok, htok, hmap⟩
    rcases List.mem_filter.mp htok with ⟨hmem, hlen⟩
    exact ⟨tok, hmem, by simpa using hlen, hmap.symm⟩
  · intro hall
    have hterms : queryTerms q = [] := by
      unfold queryTerms
      rw [List.filter_eq_nil_iff.mpr (fun tok hmem => by simpa using hall tok hmem)]
      rfl
    simp [retrieveRelevantContent, hterms]

/-- Witness for the amended C5: a query of short tokens retrieves nothing. -/
theorem queryTerms_pipeline_witness :
    retrieveRelevantContent ['h', 'i', ' ', 'o', 'k'] [['h', 'i']] = some [] :=
  (queryTerms_pipeline ['h', 'i', ' ', 'o', 'k'] [['h', 'i']]).2 (by decide)

/-! ### Claim C1 -/

theorem insertScored_perm (a : Str × Nat) : ∀ l, List.Perm (insertScored a l) (a :: l) := by
  intro l
  induction l with
  | nil => exact List.Perm.refl _
  | cons b l ih =>
    unfold insertScored
    by_cases h : b.2 ≤ a.2
    · rw [if_pos h]
    · rw [if_neg h]
      exact List.Perm.trans (List.Perm.cons b ih) (List.Perm.swap a b l)

theorem insertScored_sorted (a : Str × Nat) : ∀ l,
    l.Pairwise (fun p q2 => q2.2 ≤ p.2) →
    (insertScored a l).Pairwise (fun p q2 => q2.2 ≤ p.2) := by
  intro l
  induction l with
  | nil => intro _; simp [insertScored]
  | cons b l ih =>
    intro hp
    rcases List.pairwise_cons.mp hp with ⟨hb, hl⟩
    unfold insertScored
    by_cases h : b.2 ≤ a.2
    · rw [if_pos h]
      refine List.pairwise_cons.mpr ⟨?_, hp⟩
      intro y hy
      rcases List.mem_cons.mp hy with h1 | h2
      · subst h1; exact h
      · exact Nat.le_trans (hb y h2) h
    · rw [if_neg h]
      refine List.pairwise_cons.mpr ⟨?_, ih hl⟩
      intro y hy
      have hy2 : y ∈ a :: l := (insertScored_perm a l).mem_iff.mp hy
      rcases List.mem_cons.mp hy2 with h1 | h2
      · subst h1; omega
      · exact hb y h2

theorem sortScored_perm : ∀ l, List.Perm (sortScored l) l := by
  intro l
  induction l with
  | nil => exact List.Perm.refl _
  | cons a l ih =>
    unfold sortScored
    exact List.Perm.trans (insertScored_perm a _) (List.Perm.cons a ih)

theorem sortScored_sorted : ∀ l, (sortScored l).Pairwise (fun p q2 => q2.2 ≤ p.2) := by
  intro l
  induction l with
  | nil => simp [sortScored]
  | cons a l ih => exact insertScored_sorted a _ ih

/-- Stability of the insertion: elements of a fixed score keep their relative
order, the inserted element going in front of the (later) equal-score ones it
was inserted before. -/
theorem insertScored_filter (a : Str × Nat) (k : Nat) : ∀ l,
    (insertScored a l).filter (fun p => decide (p.2 = k)) =
      if a.2 = k then a :: l.filter (fun p => decide (p.2 = k))
      else l.filter (fun p => decide (p.2 = k)) := by
  intro l
  induction l with
  | nil =>
    by_cases h : a.2 = k <;> simp [insertScored, h]
  | cons b l ih =>
    unfold insertScored
    by_cases hba : b.2 ≤ a.2
    · rw [if_pos hba]
      by_cases hak : a.2 = k
      · rw [if_pos hak]
        simp [List.filter_cons, hak]
      · rw [if_neg hak]
        simp [List.filter_cons, hak]
    · rw [if_neg hba]
      by_cases hak : a.2 = k
      · rw [if_pos hak]
        have hbk : ¬b.2 = k := by omega
        rw [List.filter_cons, List.filter_cons]
        simp [hbk, ih, hak]
      · rw [if_neg hak]
        rw [List.filter_cons, List.filter_cons]
        by_cases hbk : b.2 = k <;> simp [hbk, ih, hak]

/-- Stability of the sort: the elements of any fixed score appear in the
sorted list exactly as they appear in the input. -/
theorem sortScored_filter (k : Nat) : ∀ l,
    (sortScored l).filter (fun p => decide (p.2 = k)) =
      l.filter (fun p => decide (p.2 = k)) := by
  intro l
  induction l with
  | nil => rfl
  | cons a l ih =>
    unfold sortScored
    rw [insertScored_filter, List.filter_cons]
    by_cases hak : a.2 = k
    · rw [if_pos hak, ih]
      simp [hak]
    · rw [if_neg hak, ih]
      simp [hak]

/-- A successful scoring pass pairs every chunk with its score. -/
theorem mapOption_scored (terms : List Str) : ∀ (chunks : List Str)
    (scored : List (Str × Nat)),
    mapOption (fun c => (scoreChunk terms c).map (fun s => (c, s))) chunks = some scored →
    scored = chunks.map (fun c => (c, chunkScore terms c)) := by
  intro chunks
  induction chunks with
  | nil =>
    intro scored h
    simp [mapOption] at h
    subst h
    rfl
  | cons c cs ih =>
    intro scored h
    simp only [mapOption] at h
    cases hsc : scoreChunk terms c with
    | none =>
      rw [hsc] at h
      simp at h
    | some s0 =>
      rw [hsc] at h
      cases hmo : mapOption (fun c2 => (scoreChunk terms c2).map (fun s => (c2, s))) cs with
      | none =>
        rw [hmo] at h
        simp at h
      | some bs =>
        rw [hmo] at h
        simp at h
        subst h
        rw [List.map_cons, ← ih bs hmo]
        unfold chunkScore
        rw [hsc]
        rfl

/-- Claim C1: when retrieval completes normally, it returns at most 3
chunks, every returned chunk has positive score, the chunks are ordered by
non-increasing score, and within any one score the returned chunks appear in
their original document order (a sublist of the input chunk list). -/
theorem retrieval_shape (q : Str) (chunks : List Str) (r : List Str)
    (h : retrieveRelevantContent q chunks = some r) :
    r.length ≤ 3 ∧
    (∀ c ∈ r, 0 < chunkScore (queryTerms q) c) ∧
    r.Pairwise (fun a b => chunkScore (queryTerms q) b ≤ chunkScore (queryTerms q) a) ∧
    ∀ k, List.Sublist (r.filter (fun c => decide (chunkScore (queryTerms q) c = k))) chunks := by
  unfold retrieveRelevantContent at h
  simp only at h
  by_cases hterms : (queryTerms q).isEmpty
  · rw [if_pos hterms] at h
    simp only [Option.some.injEq] at h
    subst h
    exact ⟨by simp, by simp, by simp, fun k => by simp⟩
  · rw [if_neg hterms] at h
    cases hmo : mapOption (fun c => (scoreChunk (queryTerms q) c).map (fun s => (c, s)))
        chunks with
    | none => rw [hmo] at h; simp at h
    | some scored =>
      rw [hmo] at h
      simp only [Option.map_some', Option.some.injEq] at h
      subst h
      have hscored := mapOption_scored (queryTerms q) chunks scored hmo
      have hsnd : ∀ p ∈ scored, p.2 = chunkScore (queryTerms q) p.1 := by
        intro p hp
        rw [hscored] at hp
        rcases List.mem_map.mp hp with ⟨c, _, hpc⟩
        rw [← hpc]
      have hfst : scored.map Prod.fst = chunks := by
        rw [hscored, List.map_map]
        rw [show (Prod.fst ∘ fun c => (c, chunkScore (queryTerms q) c)) = id from rfl]
        exact List.map_id chunks
      set F := scored.filter (fun p => decide (0 < p.2)) with hF
      set T := (sortScored F).take 3 with hT
      have hTsub : ∀ p ∈ T, p ∈ scored := by
        intro p hp
        have h1 : p ∈ sortScored F := List.take_subset 3 _ hp
        have h2 : p ∈ F := (sortScored_perm F).mem_iff.mp h1
        exact List.mem_of_mem_filter h2
      refine ⟨?_, ?_, ?_, ?_⟩
      · rw [List.length_map, hT, List.length_take]
        exact Nat.min_le_left 3 _
      · intro c hc
        rcases List.mem_map.mp hc with ⟨p, hpT, hpc⟩
        have h1 : p ∈ sortScored F := List.take_subset 3 _ hpT
        have h2 : p ∈ F := (sortScored_perm F).mem_iff.mp h1
        have hp2 : 0 < p.2 := by simpa using (List.mem_filter.mp h2).2
        rw [← hpc, ← hsnd p (hTsub p hpT)]
        exact hp2
      · have hsorted : (sortScored F).Pairwise (fun p q2 => q2.2 ≤ p.2) :=
          sortScored_sorted F
        have hTp : T.Pairwise (fun p q2 => q2.2 ≤ p.2) :=
          hsorted.sublist (List.take_sublist 3 _)
        apply List.pairwise_map.mpr
        apply hTp.imp_of_mem
        intro p p2 hp hp2 hle
        rw [← hsnd p (hTsub p hp), ← hsnd p2 (hTsub p2 hp2)]
        exact hle
      · intro k
        have e1 : (T.map Prod.fst).filter (fun c => decide (chunkScore (queryTerms q) c = k))
            = (T.filter (fun p => decide (chunkScore (queryTerms q) p.1 = k))).map Prod.fst := by
          rw [List.filter_map]
          rfl
        have e2 : T.filter (fun p => decide (chunkScore (queryTerms q) p.1 = k))
            = T.filter (fun p => decide (p.2 = k)) := by
          apply List.filter_congr
          intro p hp
          rw [hsnd p (hTsub p hp)]
        have s1 : List.Sublist (T.filter (fun p => decide (p.2 = k)))
            ((sortScored F).filter (fun p => decide (p.2 = k))) :=
          (List.take_sublist 3 _).filter _
        have e3 : (sortScored F).filter (fun p => decide (p.2 = k))
            = F.filter (fun p => decide (p.2 = k)) := sortScored_filter k F
        have s2 : List.Sublist (F.filter (fun p => decide (p.2 = k))) scored :=
          List.Sublist.trans (List.filter_sublist F) (List.filter_sublist scored)
        have s3 : List.Sublist (T.filter (fun p => decide (p.2 = k))) scored := by
          rw [e3] at s1
          exact List.Sublist.trans s1 s2
        have s4 : List.Sublist ((T.filter (fun p => decide (p.2 = k))).map Prod.fst) chunks := by
          rw [← hfst]
          exact s3.map Prod.fst
        rw [e1, e2]
        exact s4

/-- Witness for C1 on a concrete query and chunk list. -/
theorem retrieval_shape_witness :
    ([['v', 'a', 'c', 'a', 't', 'i', 'o', 'n']] : List Str).length ≤ 3 ∧
    (∀ c ∈ ([['v', 'a', 'c', 'a', 't', 'i', 'o', 'n']] : List Str),
      0 < chunkScore (queryTerms ['v', 'a', 'c', 'a', 't', 'i', 'o', 'n']) c) ∧
    ([['v', 'a', 'c', 'a', 't', 'i', 'o', 'n']] : List Str).Pairwise
      (fun a b => chunkScore (queryTerms ['v', 'a', 'c', 'a', 't', 'i', 'o', 'n']) b ≤
        chunkScore (queryTerms ['v', 'a', 'c', 'a', 't', 'i', 'o', 'n']) a) ∧
    ∀ k, List.Sublist (([['v', 'a', 'c', 'a', 't', 'i', 'o', 'n']] : List Str).filter
        (fun c => decide (chunkScore (queryTerms ['v', 'a', 'c', 'a', 't', 'i', 'o', 'n']) c = k)))
      [['v', 'a', 'c', 'a', 't', 'i', 'o', 'n'], ['x', 'y']] :=
  retrieval_shape ['v', 'a', 'c', 'a', 't', 'i', 'o', 'n']
    [['v', 'a', 'c', 'a', 't', 'i', 'o', 'n'], ['x', 'y']]
    [['v', 'a', 'c', 'a', 't', 'i', 'o', 'n']] (by decide)

end RagServer
